import Mathlib

/-!
# Verification of the response-safety and chunked file-retrieval subsystem

Shallow embedding of the core of `cursor-azure-devops-mcp`
(`src/azure-devops-service.ts` and `src/index.ts`), together with proofs
of the specified properties.

JavaScript values that may contain circular references are modelled as a
pointer heap: primitives are immediate, composites (objects / arrays) live
at numeric addresses in a finite heap and are referred to through `JVal.ref`.
A cyclic object is simply a heap whose object graph has a cycle.

The call stack of `JSON.stringify` is modelled by an explicit fuel
parameter: running out of fuel corresponds to unbounded recursion
(a thrown `RangeError` / `TypeError: Converting circular structure`).
-/

namespace AzDevOps

/-- JavaScript primitive values (the JSON-serialisable ones). -/
inductive JPrim where
  | jstr (s : String)
  | jnum (n : Int)
  | jbool (b : Bool)
  | jnull
  deriving DecidableEq
/-- A JavaScript value: a primitive, or a reference to a composite stored in
the heap.  References are what makes circular structures representable. -/
inductive JVal where
  | prim (p : JPrim)
  | ref (a : Nat)
  deriving DecidableEq
/-- A composite JavaScript object: an array or a record of key/value pairs
(keys in insertion order, as JavaScript preserves it for string keys). -/
inductive JObj where
  | arr (items : List JVal)
  | record (fields : List (String × JVal))
  deriving DecidableEq
/-- The heap: a finite association of addresses to composites. -/
def JHeap := List (Nat × JObj)
instance : DecidableEq JHeap := by
  unfold JHeap
  infer_instance
/-- Escape a character for inclusion in a JSON string literal. -/
def escChar (c : Char) : String :=
  if c = '"' then "\\\"" else if c = '\\' then "\\\\" else String.singleton c
/-- Render a JSON string literal. -/
def renderJstr (s : String) : String :=
  "\"" ++ String.join (s.toList.map escChar) ++ "\""
/-- Render a primitive the way `JSON.stringify` prints it. -/
def renderPrim : JPrim → String
  | .jstr s => renderJstr s
  | .jnum n => toString n
  | .jbool true => "true"
  | .jbool false => "false"
  | .jnull => "null"
/-- The property names that the replacer in `safeStringify`
(`azure-devops-service.ts:28`) always maps to the `'[Circular]'` marker. -/
def circularKeys : List String := ["_httpMessage", "socket", "connection", "agent"]
/-- Addresses present in a heap. -/
def heapAddrs (hp : JHeap) : List Nat := hp.map Prod.fst
/-- Number of heap addresses not yet recorded in the `seen` set. -/
def unseenCount (hp : JHeap) (seen : List Nat) : Nat :=
  ((heapAddrs hp).filter (fun a => ¬ a ∈ seen)).length
/-- Serialise the items of an array with the one-value serialiser `f`;
`idx` is the array index passed to the replacer as the property key.
The `seen` set is threaded left to right, as the shared `WeakSet` is. -/
def strItems (f : List Nat → String → JVal → Option (String × List Nat)) :
    List JVal → List Nat → Nat → Option (List String × List Nat)
  | [], seen, _ => some ([], seen)
  | v :: rest, seen, idx =>
    match f seen (toString idx) v with
    | none => none
    | some (s, seen1) =>
      match strItems f rest seen1 (idx + 1) with
      | none => none
      | some (ss, seen2) => some (s :: ss, seen2)
/-- Serialise the fields of a record as `"key":value` parts with the
one-value serialiser `f`, threading the `seen` set. -/
def strFields (f : List Nat → String → JVal → Option (String × List Nat)) :
    List (String × JVal) → List Nat → Option (List String × List Nat)
  | [], seen => some ([], seen)
  | (k, v) :: rest, seen =>
    match f seen k v with
    | none => none
    | some (s, seen1) =>
      match strFields f rest seen1 with
      | none => none
      | some (ss, seen2) => some ((renderJstr k ++ ":" ++ s) :: ss, seen2)
/-- One step of `JSON.stringify(obj, replacer)` as called by `safeStringify`
(`azure-devops-service.ts:24-39`).  `seen` is the state of the `WeakSet`;
it is threaded through (the set is shared and only ever grows).  The result
is `none` when the recursion would not terminate within `fuel` nested
composite levels (i.e. the call would blow the stack). -/
def strVal (hp : JHeap) : Nat → List Nat → String → JVal → Option (String × List Nat)
  | 0, _, _, _ => none
  | fuel + 1, seen, key, v =>
    if key ∈ circularKeys then some (renderJstr "[Circular]", seen)
    else
      match v with
      | .prim p => some (renderPrim p, seen)
      | .ref a =>
        if a ∈ seen then some (renderJstr "[Circular]", seen)
        else
          match List.lookup a hp with
          | none => some ("null", a :: seen)
          | some (.arr items) =>
            match strItems (strVal hp fuel) items (a :: seen) 0 with
            | none => none
            | some (parts, seen2) => some ("[" ++ String.intercalate "," parts ++ "]", seen2)
          | some (.record fields) =>
            match strFields (strVal hp fuel) fields (a :: seen) with
            | none => none
            | some (parts, seen2) =>
              some ("\x7b" ++ String.intercalate "," parts ++ "\x7d", seen2)
/-- `safeStringify` (`azure-devops-service.ts:24-39`, identical copy in
`index.ts:475-490`): `JSON.stringify` with the circular-reference replacer.
The fuel is one more than the number of heap objects, which (as proved in
`strVal_isSome`) is always enough: the replacer inserts every composite into
the `seen` set before recursing into it. -/
def safeStringify (hp : JHeap) (v : JVal) : Option String :=
  (strVal hp (hp.length + 1) [] "" v).map Prod.fst
/-- `safeStringify` as the callers use it: a total string result.  The
fallback is never taken (`strVal_isSome`), it only makes the function total. -/
def safeStr (hp : JHeap) (v : JVal) : String := (safeStringify hp v).getD ""
/-- The essential-field allowlist (`azure-devops-service.ts:1304`). -/
def essentialFields : List String :=
  ["id", "name", "url", "project", "state", "createdBy", "createdDate"]
/-- JavaScript property read `obj[field]` for our heap values. -/
def fieldLookup (hp : JHeap) (v : JVal) (f : String) : Option JVal :=
  match v with
  | .ref a =>
    match List.lookup a hp with
    | some (.record fields) => List.lookup f fields
    | _ => none
  | _ => none
/-- `Object.entries(obj)` for our heap values (insertion order). -/
def entriesOf (hp : JHeap) (v : JVal) : List (String × JVal) :=
  match v with
  | .ref a =>
    match List.lookup a hp with
    | some (.record fields) => fields
    | _ => []
  | _ => []
/-- `Array.isArray(obj)` together with the elements when it holds. -/
def isArrayVal (hp : JHeap) (v : JVal) : Option (List JVal) :=
  match v with
  | .ref a =>
    match List.lookup a hp with
    | some (.arr items) => some items
    | _ => none
  | _ => none
/-- The possible shapes of a `truncateResponse` result: the unchanged input,
the array-truncation record, or the object-truncation record (spread of the
kept fields plus the truncation metadata). -/
inductive TruncResult where
  | unchanged (v : JVal)
  | arrTrunc (items : List JVal) (totalCount : Nat) (isTruncated : Bool)
      (truncatedCount : Nat) (message : String)
  | objTrunc (fields : List (String × JVal)) (isTruncated : Bool)
      (originalSize truncatedSize : Nat) (message : String)
  deriving DecidableEq
/-- The essential-fields pass of `truncateResponse`
(`azure-devops-service.ts:1306-1312`): collect every essential field present
on the object, in allowlist order, accumulating the running serialised size. -/
def essAccum (hp : JHeap) (obj : JVal) : List (String × JVal) × Nat :=
  essentialFields.foldl (fun p f =>
    match fieldLookup hp obj f with
    | some v => (p.1 ++ [(f, v)], p.2 + (safeStr hp v).length)
    | none => p) ([], 0)
/-- `truncateResponse` (`azure-devops-service.ts:1279-1332`). -/
def truncateResponse (hp : JHeap) (obj : JVal) (maxSize : Nat) : TruncResult :=
  let stringified := safeStr hp obj
  if stringified.length ≤ maxSize then .unchanged obj
  else
    match isArrayVal hp obj with
    | some items =>
      let truncated := items.take (max 1 (items.length * maxSize / stringified.length))
      .arrTrunc truncated items.length true (items.length - truncated.length)
        ("Response was truncated. Showing " ++ toString truncated.length ++ " of " ++
          toString items.length ++ " items.")
    | none =>
      let fin := (entriesOf hp obj).foldl (fun p kv =>
        if kv.1 ∈ essentialFields then p
        else if p.2 + (safeStr hp kv.2).length ≤ maxSize then
          (p.1 ++ [kv], p.2 + (safeStr hp kv.2).length)
        else p) (essAccum hp obj)
      .objTrunc fin.1 true stringified.length fin.2
        "Response was truncated to fit size limits. Essential information is preserved."
/-- The selection of non-essential fields that the entries pass of
`truncateResponse` actually performs, written as a direct recursion: a field
is kept exactly when its serialised size fits the budget left at its turn;
a field that does not fit is skipped, and scanning continues with the later
fields (there is no early stop). -/
def greedySelect (hp : JHeap) (maxSize : Nat) : Nat → List (String × JVal) → List (String × JVal)
  | _, [] => []
  | cur, kv :: rest =>
    if kv.1 ∈ essentialFields then greedySelect hp maxSize cur rest
    else if cur + (safeStr hp kv.2).length ≤ maxSize then
      kv :: greedySelect hp maxSize (cur + (safeStr hp kv.2).length) rest
    else greedySelect hp maxSize cur rest
/-- Concrete input refuting claim C6: a record whose first non-essential
field (`"a"`, serialised size 18) does not fit the 10-byte budget while the
later field (`"b"`, serialised size 1) does. -/
def c6Heap : JHeap :=
  [(0, JObj.record [("a", JVal.prim (.jstr "aaaaaaaaaaaaaaaa")), ("b", JVal.prim (.jnum 1))])]
/-- Concrete record for the C7 witness. -/
def c7Heap : JHeap :=
  [(0, JObj.record
      [("id", JVal.prim (.jnum 7)),
       ("data", JVal.prim (.jstr "xxxxxxxxxxxxxxxxxxxxxxxxxxxxxxxx"))])]
/-- Concrete input refuting claim C8: the empty array, serialised as `[]`
(2 bytes), with budget 1. -/
def c8Heap : JHeap := [(0, JObj.arr [])]
/-- Concrete three-item array (serialised as `[1,2,3]`, 7 bytes) for the C8
witness. -/
def c8wHeap : JHeap :=
  [(0, JObj.arr [JVal.prim (.jnum 1), JVal.prim (.jnum 2), JVal.prim (.jnum 3)])]
/-- `PullRequestFileContent` (`types.ts:192-200`).  Byte strings are kept as
lists of characters; the optional fields are `none` when the JavaScript
object omits them (`undefined`). -/
structure PullRequestFileContent where
  content : List Char
  size : Nat
  position : Nat
  length : Nat
  error : Option String
  isBinary : Option Bool
  contentLength : Option Nat
  deriving DecidableEq
/-- JavaScript truthiness of a possibly-`undefined` boolean
(`initialChunk.isBinary`). -/
def jsTruthy : Option Bool → Bool
  | some b => b
  | none => false
/-- JavaScript `x || y` for a possibly-`undefined` number `x`
(`initialChunk.contentLength || initialChunk.size`): `undefined` and `0` are
falsy. -/
def jsOrN : Option Nat → Nat → Nat
  | some n, d => if n = 0 then d else n
  | none, d => d
/-- The binary placeholder returned by the probe short-circuit
(`azure-devops-service.ts:689`). -/
def binaryNotDisplayed (n : Nat) : List Char :=
  ("[Binary file content not displayed. File size: " ++ toString n ++ " bytes]").toList
/-- One wave of chunk requests (`azure-devops-service.ts:716-720`): up to `k`
requests of up to 100000 bytes each, advancing the cursor, stopping at the
end of the file.  Each request is a `(startPosition, chunkSize)` pair, in
issuance order (increasing offsets). -/
def waveReqs : Nat → Nat → Nat → List (Nat × Nat)
  | 0, _, _ => []
  | k + 1, pos, total =>
    if pos < total then
      (pos, min 100000 (total - pos)) :: waveReqs k (pos + min 100000 (total - pos)) total
    else []
/-- The total number of bytes requested by a wave. -/
def sumSizes (reqs : List (Nat × Nat)) : Nat := (reqs.map Prod.snd).sum
/-- One completion event of `Promise.all`: the request with index `i`
resolves and its result is written into slot `i`. -/
def resolveEvent {α β : Type} (reqs : List α) (fetch : α → β)
    (slots : List (Option β)) (i : Nat) : List (Option β) :=
  match reqs[i]? with
  | some r => slots.set i (some (fetch r))
  | none => slots
/-- `Promise.all`, modelled operationally: the issued requests complete in an
arbitrary completion order (`order` lists request indices in the order their
responses arrive); each completion writes its result into the slot of its
request index.  The returned array is read off the slots, so it is in
issuance order no matter what `order` is. -/
def collectEvents {α β : Type} (reqs : List α) (fetch : α → β) (order : List Nat) :
    List (Option β) :=
  order.foldl (resolveEvent reqs fetch) (List.replicate reqs.length none)
/-- A completion order is complete for `n` issued requests when every request
index eventually resolves. -/
def Covers (order : List Nat) (n : Nat) : Prop := ∀ j, j < n → j ∈ order
instance (order : List Nat) (n : Nat) : Decidable (Covers order n) :=
  Nat.decidableBallLT n fun j _ => j ∈ order
/-- The wave loop of `getCompleteFileContent`
(`azure-devops-service.ts:712-732`): while the cursor has not reached the
total length, issue a wave of up to 5 parallel requests, wait for all of
them (`collectEvents` with this wave's completion order), append the chunk
contents in slot (= issuance) order, and advance the cursor.  Also returns
the full list of issued range requests, for the call-trace claims. -/
def chunkLoop (fetchChunk : Nat → Nat → PullRequestFileContent) (orders : Nat → List Nat)
    (w pos total : Nat) : List (List Char) × List (Nat × Nat) :=
  if h : pos < total then
    let reqs := waveReqs 5 pos total
    let slots := collectEvents reqs (fun r => fetchChunk r.1 r.2) (orders w)
    let contents := slots.map (fun o => match o with | some c => c.content | none => [])
    let rest := chunkLoop fetchChunk orders (w + 1) (pos + sumSizes reqs) total
    (contents ++ rest.1, reqs ++ rest.2)
  else ([], [])
termination_by total - pos
decreasing_by
  have hexp : waveReqs 5 pos total =
      if pos < total then
        (pos, min 100000 (total - pos)) ::
          waveReqs 4 (pos + min 100000 (total - pos)) total
      else [] := rfl
  rw [if_pos h] at hexp
  have hsum : sumSizes (waveReqs 5 pos total) =
      min 100000 (total - pos) +
        sumSizes (waveReqs 4 (pos + min 100000 (total - pos)) total) := by
    rw [hexp, sumSizes, List.map_cons, List.sum_cons]
    rfl
  simp only [hsum]
  omega
/-- `getCompleteFileContent` (`azure-devops-service.ts:681-743`): probe the
first 1024 bytes; short-circuit for binary files; return small files
directly (or with one full-range fetch); otherwise run the wave loop and
concatenate the chunks in issuance order.  The first component is the
returned text, the second is the list of issued `(startPosition, length)`
range fetches, in issuance order.  `orders` gives each wave's completion
order. -/
def getCompleteFileContent (fetchChunk : Nat → Nat → PullRequestFileContent)
    (orders : Nat → List Nat) : List Char × List (Nat × Nat) :=
  let initialChunk := fetchChunk 0 1024
  if jsTruthy initialChunk.isBinary then
    (binaryNotDisplayed (jsOrN initialChunk.contentLength initialChunk.size), [(0, 1024)])
  else
    let contentLength := jsOrN initialChunk.contentLength initialChunk.size
    if contentLength ≤ 100000 then
      if contentLength ≤ initialChunk.content.length then
        (initialChunk.content, [(0, 1024)])
      else
        ((fetchChunk 0 contentLength).content, [(0, 1024), (0, contentLength)])
    else
      let loop := chunkLoop fetchChunk orders 0 0 contentLength
      (loop.1.flatten, (0, 1024) :: loop.2)
/-- The honest range fetcher for a fixed non-binary file: a range request
`(pos, len)` returns exactly the bytes `[pos, pos+len)` of the file, the
true total size, and the binary flag false — the contract the upstream API
is assumed to satisfy. -/
def specFetcher (file : List Char) (pos len : Nat) : PullRequestFileContent :=
  { content := (file.drop pos).take len
    size := file.length
    position := pos
    length := ((file.drop pos).take len).length
    error := none
    isBinary := some false
    contentLength := some file.length }
/-- Slot `j` already holds the (deterministic) result of request `j`. -/
def SlotDone {α β : Type} (reqs : List α) (fetch : α → β) (j : Nat)
    (slots : List (Option β)) : Prop :=
  ∀ r, reqs[j]? = some r → slots[j]? = some (some (fetch r))
/-- A fetcher whose probe reports a binary file of 5 bytes. -/
def binFetcher : Nat → Nat → PullRequestFileContent := fun _ _ =>
  { content := []
    size := 5
    position := 0
    length := 0
    error := none
    isBinary := some true
    contentLength := none }
/-- The binary extension allowlist (`azure-devops-service.ts:960-987`). -/
def binaryExtensions : List String :=
  [".jpg", ".jpeg", ".png", ".gif", ".bmp", ".ico", ".svg", ".pdf", ".doc",
   ".docx", ".ppt", ".pptx", ".xls", ".xlsx", ".zip", ".tar", ".gz", ".rar",
   ".7z", ".exe", ".dll", ".so", ".dylib", ".bin", ".dat", ".class"]
/-- `filePath.substring(filePath.lastIndexOf('.'))`: the suffix starting at
the last `'.'`; when the path holds no `'.'` at all, `lastIndexOf` is `-1`
and `substring(-1)` clamps to the whole string. -/
def extSuffix : List Char → List Char
  | [] => []
  | c :: rest => if '.' ∈ rest then extSuffix rest else c :: rest
/-- `isBinaryFile` (`azure-devops-service.ts:959-991`): lowercase the suffix
at the last dot and test membership in the extension allowlist. -/
def isBinaryFile (filePath : List Char) : Bool :=
  binaryExtensions.contains (String.mk ((extSuffix filePath).map Char.toLower))
/-- `contentMetadata` of a git item. -/
structure ContentMetadata where
  contentLength : Option Nat
  deriving DecidableEq
/-- A git item as returned by `getItem` (only the fields the resolver
reads). -/
structure GitItem where
  objectId : Option String
  contentMetadata : Option ContentMetadata
  deriving DecidableEq
/-- A git ref as returned by `getRefs`. -/
structure GitRef where
  objectId : String
  deriving DecidableEq
/-- A pull request as returned by `getPullRequestById` (only the fields the
resolver reads). -/
structure PullRequestInfo where
  sourceRefName : Option String
  targetRefName : Option String
  deriving DecidableEq
/-- What `getItemText` may resolve to: a string, some other non-null object
(a heap value, run through `safeStringify`), or `null`/`undefined`. -/
inductive TextContent where
  | tstr (s : List Char)
  | tobj (hp : JHeap) (a : Nat)
  | tnull
  deriving DecidableEq
/-- What `getItemContent` may resolve to: a `Buffer`, or something that is
not a buffer. -/
inductive ItemContent where
  | cbuf (b : List Char)
  | cother
  deriving DecidableEq
/-- The upstream git client surface used by the resolver.  Every method is an
`await` on an upstream call: it either resolves (`Except.ok`) or rejects
with an error message (`Except.error`).  The argument lists mirror the call
sites in `index.ts` (repository, path, project, then object id or commit id,
then the byte range where present). -/
structure GitEnv where
  getItemMeta : String → String → String → String → Except String GitItem
  getItemText : String → String → String → String → Nat → Nat → Except String TextContent
  getPullRequestById : String → Nat → String → Except String PullRequestInfo
  getRefs : String → String → String → Except String (List GitRef)
  getItemAtCommit : String → String → String → String → Except String GitItem
  getItemTextAtCommit : String → String → String → String → Nat → Nat →
    Except String TextContent
  getItemContentAtCommit : String → String → String → String → Except String ItemContent
/-- `item?.contentMetadata?.contentLength || 0` (`index.ts:961/984/1173`). -/
def itemLen (item : GitItem) : Nat :=
  (item.contentMetadata.bind ContentMetadata.contentLength).getD 0
/-- The string coercion applied to a `getItemText` result
(`index.ts:1046-1058` and `index.ts:1228-1240`): strings pass through,
non-null objects go through `safeStringify` (with the catch fallback),
anything else yields the empty string. -/
def coerceContent : TextContent → List Char
  | .tstr s => s
  | .tobj hp a =>
    match safeStringify hp (JVal.ref a) with
    | some s => s.toList
    | none => "[Content could not be displayed due to format issues]".toList
  | .tnull => []
/-- The binary placeholder of the resolver (`index.ts:964/1178`):
`Math.round(fileSize / 1024)` kilobytes. -/
def binKBPlaceholder (fileSize : Nat) : List Char :=
  ("[Binary file not displayed - " ++ toString ((fileSize + 512) / 1024) ++ "KB]").toList
/-- `branchName.replace(/^refs\/heads\//, '')` (`index.ts:1142`). -/
def stripRefsHeads (branchName : String) : String :=
  if branchName.startsWith "refs/heads/" then branchName.drop 11 else branchName
/-- JavaScript truthiness of a possibly-`undefined` string
(`if (pullRequest.sourceRefName)`). -/
def jsTruthyStr : Option String → Bool
  | some s => s != ""
  | none => false
/-- `getFileFromBranch` (`index.ts:1119-1268`): resolve the branch to its
head commit via `getRefs`, read the file size from item metadata, return a
placeholder for binary paths, otherwise fetch the ranged text (falling back
to an un-ranged whole-file `getItemContent` buffer); every failure is caught
and returned as a `FileRange` with `error` set — the function itself never
throws. -/
def getFileFromBranch (env : GitEnv) (repositoryId filePath branchName : String)
    (startPosition length : Nat) (projectName : String) : PullRequestFileContent :=
  let cleanBranchName := stripRefsHeads branchName
  match env.getRefs repositoryId projectName ("heads/" ++ cleanBranchName) with
  | .error e =>
    { content := [], size := 0, position := startPosition, length := 0
      error := some ("Failed to access branch " ++ branchName ++ ": " ++ e)
      isBinary := none, contentLength := none }
  | .ok refs =>
    match refs with
    | [] =>
      { content := [], size := 0, position := startPosition, length := 0
        error := some ("Branch reference not found for " ++ cleanBranchName)
        isBinary := none, contentLength := none }
    | r0 :: _ =>
      match env.getItemAtCommit repositoryId filePath projectName r0.objectId with
      | .error e =>
        { content := [], size := 0, position := startPosition, length := 0
          error := some ("Failed to retrieve file from branch " ++ cleanBranchName ++
            ": " ++ e)
          isBinary := none, contentLength := none }
      | .ok item =>
        if isBinaryFile filePath.toList then
          { content := binKBPlaceholder (itemLen item), size := itemLen item
            position := startPosition, length := 0, error := none
            isBinary := none, contentLength := none }
        else
          match
            (match env.getItemTextAtCommit repositoryId filePath projectName r0.objectId
                startPosition length with
             | .ok rc => Except.ok rc
             | .error _ =>
               match env.getItemContentAtCommit repositoryId filePath projectName
                   r0.objectId with
               | .ok (.cbuf b) => Except.ok (TextContent.tstr b)
               | .ok .cother =>
                 Except.error "Failed to retrieve file content in any format"
               | .error e => Except.error e) with
          | .error e =>
            { content := [], size := 0, position := startPosition, length := 0
              error := some ("Failed to retrieve file from branch " ++ cleanBranchName ++
                ": " ++ e)
              isBinary := none, contentLength := none }
          | .ok rc =>
            { content := coerceContent rc, size := itemLen item
              position := startPosition, length := (coerceContent rc).length
              error := none, isBinary := none, contentLength := none }
/-- The terminal failure result of `getPullRequestFileContent`
(`index.ts:1066-1075`): the outer catch wraps whatever was thrown. -/
def prOuterCatch (filePath : String) (startPosition : Nat) (e : String) :
    PullRequestFileContent :=
  { content := [], size := 0, position := startPosition, length := 0
    error := some ("Failed to retrieve content for file: " ++ filePath ++ ". Error: " ++ e)
    isBinary := none, contentLength := none }
/-- `getPullRequestFileContent` (`index.ts:932-1076`): binary paths are
answered from metadata with a placeholder; otherwise the direct object-id
ranged text fetch is attempted, and on rejection the resolver looks up the
owning pull request and retries through `getFileFromBranch` on the source
branch and then the target branch; when everything fails the outer catch
returns a `FileRange` with `error` set and empty content. -/
def getPullRequestFileContent (env : GitEnv) (repositoryId : String) (pullRequestId : Nat)
    (filePath objectId : String) (startPosition length : Nat) (projectName : String) :
    PullRequestFileContent :=
  if isBinaryFile filePath.toList then
    match env.getItemMeta repositoryId filePath projectName objectId with
    | .ok item =>
      { content := binKBPlaceholder (itemLen item), size := itemLen item
        position := startPosition, length := 0, error := none
        isBinary := none, contentLength := none }
    | .error e =>
      { content := "[Binary file - Unable to retrieve size information]".toList
        size := 0, position := startPosition, length := 0
        error := some ("Failed to get binary file info: " ++ e)
        isBinary := none, contentLength := none }
  else
    match env.getItemMeta repositoryId filePath projectName objectId with
    | .error e => prOuterCatch filePath startPosition e
    | .ok item =>
      match env.getItemText repositoryId filePath projectName objectId startPosition
          length with
      | .ok raw =>
        { content := coerceContent raw, size := itemLen item, position := startPosition
          length := (coerceContent raw).length, error := none
          isBinary := none, contentLength := none }
      | .error _ =>
        match env.getPullRequestById repositoryId pullRequestId projectName with
        | .error e =>
          prOuterCatch filePath startPosition ("Failed to retrieve content: " ++ e)
        | .ok pr =>
          match
            (if jsTruthyStr pr.sourceRefName then
              match pr.sourceRefName with
              | some src =>
                if (getFileFromBranch env repositoryId filePath src startPosition length
                    projectName).error.isNone then
                  some (getFileFromBranch env repositoryId filePath src startPosition
                    length projectName)
                else none
              | none => none
            else none) with
          | some r => r
          | none =>
            match
              (if jsTruthyStr pr.targetRefName then
                match pr.targetRefName with
                | some tgt =>
                  if (getFileFromBranch env repositoryId filePath tgt startPosition length
                      projectName).error.isNone then
                    some (getFileFromBranch env repositoryId filePath tgt startPosition
                      length projectName)
                  else none
                | none => none
              else none) with
            | some r => r
            | none =>
              prOuterCatch filePath startPosition
                ("Failed to retrieve content: " ++
                  "Failed to retrieve content using branch approach")
/-- An environment for the C3 witness: metadata resolves, the direct ranged
text fetch rejects, the pull request resolves with both branches, and every
branch-side call rejects, so both fallbacks fail. -/
def c3Env : GitEnv :=
  { getItemMeta := fun _ _ _ _ => .ok ⟨none, none⟩
    getItemText := fun _ _ _ _ _ _ => .error "direct failed"
    getPullRequestById := fun _ _ _ => .ok ⟨some "refs/heads/s", some "refs/heads/t"⟩
    getRefs := fun _ _ _ => .error "refs down"
    getItemAtCommit := fun _ _ _ _ => .error "nope"
    getItemTextAtCommit := fun _ _ _ _ _ _ => .error "nope"
    getItemContentAtCommit := fun _ _ _ _ => .error "nope" }
/-- The `FileRange` data-model invariant as the spec states it, weakened on
the content side by the one placeholder the code actually returns together
with an error (`index.ts:971-977`). -/
def FileRangeInv (r : PullRequestFileContent) : Prop :=
  (r.error = none → r.position + r.length ≤ r.size) ∧
  (r.error ≠ none → r.content = [] ∨
    r.content = "[Binary file - Unable to retrieve size information]".toList)
/-- Honesty of the upstream store for one file at one path: metadata reports
the file's true size, and both ranged text endpoints return exactly the
requested byte range of the file. -/
structure EnvHonest (env : GitEnv) (repositoryId filePath projectName : String)
    (file : List Char) : Prop where
  metaObj : ∀ oid item,
    env.getItemMeta repositoryId filePath projectName oid = .ok item →
    itemLen item = file.length
  metaCommit : ∀ cid item,
    env.getItemAtCommit repositoryId filePath projectName cid = .ok item →
    itemLen item = file.length
  textObj : ∀ oid st ln rc,
    env.getItemText repositoryId filePath projectName oid st ln = .ok rc →
    rc = .tstr ((file.drop st).take ln)
  textCommit : ∀ cid st ln rc,
    env.getItemTextAtCommit repositoryId filePath projectName cid st ln = .ok rc →
    rc = .tstr ((file.drop st).take ln)
/-- An environment where every upstream call rejects. -/
def c4Env1 : GitEnv :=
  { getItemMeta := fun _ _ _ _ => .error "down"
    getItemText := fun _ _ _ _ _ _ => .error "down"
    getPullRequestById := fun _ _ _ => .error "down"
    getRefs := fun _ _ _ => .error "down"
    getItemAtCommit := fun _ _ _ _ => .error "down"
    getItemTextAtCommit := fun _ _ _ _ _ _ => .error "down"
    getItemContentAtCommit := fun _ _ _ _ => .error "down" }
/-- An honest 2-byte store (file `"hi"`) whose branch-side calls reject. -/
def c4Env2 : GitEnv :=
  { getItemMeta := fun _ _ _ _ => .ok ⟨none, some ⟨some 2⟩⟩
    getItemText := fun _ _ _ _ st ln => .ok (.tstr ((("hi".toList).drop st).take ln))
    getPullRequestById := fun _ _ _ => .error "n/a"
    getRefs := fun _ _ _ => .error "n/a"
    getItemAtCommit := fun _ _ _ _ => .error "n/a"
    getItemTextAtCommit := fun _ _ _ _ _ _ => .error "n/a"
    getItemContentAtCommit := fun _ _ _ _ => .error "n/a" }
/-- A 2-byte store whose ranged branch text endpoint rejects but whose
un-ranged `getItemContent` returns the whole file as a buffer. -/
def c4Env3 : GitEnv :=
  { getItemMeta := fun _ _ _ _ => .error "n/a"
    getItemText := fun _ _ _ _ _ _ => .error "n/a"
    getPullRequestById := fun _ _ _ => .error "n/a"
    getRefs := fun _ _ _ => .ok [⟨"c"⟩]
    getItemAtCommit := fun _ _ _ _ => .ok ⟨none, some ⟨some 2⟩⟩
    getItemTextAtCommit := fun _ _ _ _ _ _ => .error "range endpoint down"
    getItemContentAtCommit := fun _ _ _ _ => .ok (.cbuf ("hi".toList)) }
/-- A fully honest 2-byte store with no buffer fallback available. -/
def c4wEnv : GitEnv :=
  { getItemMeta := fun _ _ _ _ => .ok ⟨none, some ⟨some 2⟩⟩
    getItemText := fun _ _ _ _ st ln => .ok (.tstr ((("hi".toList).drop st).take ln))
    getPullRequestById := fun _ _ _ => .ok ⟨some "refs/heads/s", some "refs/heads/t"⟩
    getRefs := fun _ _ _ => .ok [⟨"c"⟩]
    getItemAtCommit := fun _ _ _ _ => .ok ⟨none, some ⟨some 2⟩⟩
    getItemTextAtCommit := fun _ _ _ _ st ln =>
      .ok (.tstr ((("hi".toList).drop st).take ln))
    getItemContentAtCommit := fun _ _ _ _ => .error "no buffer" }
/-- A store reporting a 4096-byte binary file. -/
def c5Env : GitEnv :=
  { getItemMeta := fun _ _ _ _ => .ok ⟨none, some ⟨some 4096⟩⟩
    getItemText := fun _ _ _ _ _ _ => .error "n/a"
    getPullRequestById := fun _ _ _ => .error "n/a"
    getRefs := fun _ _ _ => .ok [⟨"c"⟩]
    getItemAtCommit := fun _ _ _ _ => .ok ⟨none, some ⟨some 4096⟩⟩
    getItemTextAtCommit := fun _ _ _ _ _ _ => .error "n/a"
    getItemContentAtCommit := fun _ _ _ _ => .error "n/a" }

/-! ## Theorems -/

theorem strVal_circKey {hp : JHeap} {fuel : Nat} {seen : List Nat} {key : String} {v : JVal}
    (h : key ∈ circularKeys) :
    strVal hp (fuel + 1) seen key v = some (renderJstr "[Circular]", seen) := by
  simp [strVal.eq_def, h]
theorem strVal_prim {hp : JHeap} {fuel : Nat} {seen : List Nat} {key : String} {p : JPrim}
    (h : ¬ key ∈ circularKeys) :
    strVal hp (fuel + 1) seen key (.prim p) = some (renderPrim p, seen) := by
  simp [strVal.eq_def, h]
theorem strVal_ref_seen {hp : JHeap} {fuel : Nat} {seen : List Nat} {key : String} {a : Nat}
    (h : ¬ key ∈ circularKeys) (hs : a ∈ seen) :
    strVal hp (fuel + 1) seen key (.ref a) = some (renderJstr "[Circular]", seen) := by
  simp [strVal.eq_def, h, hs]
theorem strVal_ref_dangling {hp : JHeap} {fuel : Nat} {seen : List Nat} {key : String} {a : Nat}
    (h : ¬ key ∈ circularKeys) (hs : ¬ a ∈ seen) (hlk : List.lookup a hp = none) :
    strVal hp (fuel + 1) seen key (.ref a) = some ("null", a :: seen) := by
  simp [strVal.eq_def, h, hs, hlk]
theorem strVal_ref_arr {hp : JHeap} {fuel : Nat} {seen : List Nat} {key : String} {a : Nat}
    {items : List JVal}
    (h : ¬ key ∈ circularKeys) (hs : ¬ a ∈ seen) (hlk : List.lookup a hp = some (.arr items)) :
    strVal hp (fuel + 1) seen key (.ref a) =
      match strItems (strVal hp fuel) items (a :: seen) 0 with
      | none => none
      | some (parts, seen2) => some ("[" ++ String.intercalate "," parts ++ "]", seen2) := by
  simp [strVal.eq_def, h, hs, hlk]
theorem strVal_ref_record {hp : JHeap} {fuel : Nat} {seen : List Nat} {key : String} {a : Nat}
    {fields : List (String × JVal)}
    (h : ¬ key ∈ circularKeys) (hs : ¬ a ∈ seen)
    (hlk : List.lookup a hp = some (.record fields)) :
    strVal hp (fuel + 1) seen key (.ref a) =
      match strFields (strVal hp fuel) fields (a :: seen) with
      | none => none
      | some (parts, seen2) =>
        some ("\x7b" ++ String.intercalate "," parts ++ "\x7d", seen2) := by
  simp [strVal.eq_def, h, hs, hlk]
theorem lookup_mem_heapAddrs {hp : JHeap} {a : Nat} {o : JObj}
    (h : List.lookup a hp = some o) : a ∈ heapAddrs hp := by
  induction hp with
  | nil => simp at h
  | cons kv rest ih =>
    rw [List.lookup] at h
    by_cases hk : a = kv.1
    · simp [heapAddrs, hk]
    · have hbeq : (a == kv.1) = false := by simpa using hk
      simp only [hbeq] at h
      have := ih h
      simp [heapAddrs] at this ⊢
      exact Or.inr this
theorem filter_length_lt {l : List Nat} {p q : Nat → Bool} {x : Nat}
    (hpq : ∀ a, p a = true → q a = true) (hx : x ∈ l)
    (hpx : p x = false) (hqx : q x = true) :
    (l.filter p).length < (l.filter q).length := by
  induction l with
  | nil => cases hx
  | cons b rest ih =>
    rcases List.mem_cons.mp hx with hbx | hmem
    · subst hbx
      rw [List.filter_cons, List.filter_cons, hpx, hqx]
      simp only [List.length_cons]
      exact Nat.lt_succ_of_le ((List.monotone_filter_right rest hpq).length_le)
    · rw [List.filter_cons, List.filter_cons]
      cases hp : p b with
      | false =>
        cases hq : q b with
        | false => exact ih hmem
        | true => simpa using Nat.lt_succ_of_lt (ih hmem)
      | true =>
        rw [hpq b hp]
        simpa using ih hmem
theorem unseenCount_mono {hp : JHeap} {seen seen2 : List Nat}
    (h : seen <:+ seen2) : unseenCount hp seen2 ≤ unseenCount hp seen := by
  unfold unseenCount
  refine (List.monotone_filter_right (heapAddrs hp) ?_).length_le
  intro a ha
  simp only [decide_eq_true_eq] at ha ⊢
  exact fun hmem => ha (h.subset hmem)
theorem unseenCount_cons_lt {hp : JHeap} {seen : List Nat} {a : Nat}
    (hmem : a ∈ heapAddrs hp) (hnot : ¬ a ∈ seen) :
    unseenCount hp (a :: seen) < unseenCount hp seen := by
  unfold unseenCount
  refine filter_length_lt ?_ hmem ?_ ?_
  · intro b hb
    simp only [decide_eq_true_eq] at hb ⊢
    intro hbs
    exact hb (List.mem_cons_of_mem a hbs)
  · simp
  · simpa using hnot
/-- Helper for `strVal_isSome`: the array-items serialiser succeeds and only
extends the seen set, given the corresponding property of the one-value
serialiser. -/
theorem strItems_isSome {hp : JHeap} {B : Nat}
    {f : List Nat → String → JVal → Option (String × List Nat)}
    (ihv : ∀ seen key v, unseenCount hp seen < B →
      ∃ s seen2, f seen key v = some (s, seen2) ∧ seen <:+ seen2) :
    ∀ (items : List JVal) (seen : List Nat) (idx : Nat),
      unseenCount hp seen < B →
      ∃ ss seen2, strItems f items seen idx = some (ss, seen2) ∧ seen <:+ seen2 := by
  intro items
  induction items with
  | nil =>
    intro seen idx h
    exact ⟨[], seen, rfl, List.suffix_rfl⟩
  | cons v rest ih =>
    intro seen idx h
    obtain ⟨s, seen1, hv, hsuf1⟩ := ihv seen (toString idx) v h
    have h1 : unseenCount hp seen1 < B :=
      Nat.lt_of_le_of_lt (unseenCount_mono hsuf1) h
    obtain ⟨ss, seen2, hrest, hsuf2⟩ := ih seen1 (idx + 1) h1
    refine ⟨s :: ss, seen2, ?_, hsuf1.trans hsuf2⟩
    rw [strItems, hv]
    simp [hrest]
/-- Helper for `strVal_isSome`: the record-fields serialiser succeeds and only
extends the seen set. -/
theorem strFields_isSome {hp : JHeap} {B : Nat}
    {f : List Nat → String → JVal → Option (String × List Nat)}
    (ihv : ∀ seen key v, unseenCount hp seen < B →
      ∃ s seen2, f seen key v = some (s, seen2) ∧ seen <:+ seen2) :
    ∀ (fields : List (String × JVal)) (seen : List Nat),
      unseenCount hp seen < B →
      ∃ ss seen2, strFields f fields seen = some (ss, seen2) ∧ seen <:+ seen2 := by
  intro fields
  induction fields with
  | nil =>
    intro seen h
    exact ⟨[], seen, rfl, List.suffix_rfl⟩
  | cons kv rest ih =>
    obtain ⟨k, v⟩ := kv
    intro seen h
    obtain ⟨s, seen1, hv, hsuf1⟩ := ihv seen k v h
    have h1 : unseenCount hp seen1 < B :=
      Nat.lt_of_le_of_lt (unseenCount_mono hsuf1) h
    obtain ⟨ss, seen2, hrest, hsuf2⟩ := ih seen1 h1
    refine ⟨(renderJstr k ++ ":" ++ s) :: ss, seen2, ?_, hsuf1.trans hsuf2⟩
    rw [strFields, hv]
    simp [hrest]
/-- Core termination bound: with more fuel than there are heap objects
outside the seen set, the serialiser always returns a string. -/
theorem strVal_isSome {hp : JHeap} :
    ∀ (fuel : Nat) (seen : List Nat) (key : String) (v : JVal),
      unseenCount hp seen < fuel →
      ∃ s seen2, strVal hp fuel seen key v = some (s, seen2) ∧ seen <:+ seen2 := by
  intro fuel
  induction fuel with
  | zero => intro seen key v h; omega
  | succ fuel ih =>
    intro seen key v h
    by_cases hkey : key ∈ circularKeys
    · exact ⟨_, seen, strVal_circKey hkey, List.suffix_rfl⟩
    · match v with
      | .prim p => exact ⟨_, seen, strVal_prim hkey, List.suffix_rfl⟩
      | .ref a =>
        by_cases hseen : a ∈ seen
        · exact ⟨_, seen, strVal_ref_seen hkey hseen, List.suffix_rfl⟩
        · match hlk : List.lookup a hp with
          | none =>
            exact ⟨_, a :: seen, strVal_ref_dangling hkey hseen hlk, List.suffix_cons a seen⟩
          | some (.arr items) =>
            have hlt : unseenCount hp (a :: seen) < fuel := by
              have := unseenCount_cons_lt (lookup_mem_heapAddrs hlk) hseen
              omega
            obtain ⟨ss, seen2, hit, hsuf⟩ := strItems_isSome ih items (a :: seen) 0 hlt
            refine ⟨"[" ++ String.intercalate "," ss ++ "]", seen2, ?_,
              (List.suffix_cons a seen).trans hsuf⟩
            rw [strVal_ref_arr hkey hseen hlk, hit]
          | some (.record fields) =>
            have hlt : unseenCount hp (a :: seen) < fuel := by
              have := unseenCount_cons_lt (lookup_mem_heapAddrs hlk) hseen
              omega
            obtain ⟨ss, seen2, hit, hsuf⟩ := strFields_isSome ih fields (a :: seen) hlt
            refine ⟨"\x7b" ++ String.intercalate "," ss ++ "\x7d", seen2, ?_,
              (List.suffix_cons a seen).trans hsuf⟩
            rw [strVal_ref_record hkey hseen hlk, hit]
/-- C2: for every heap and every value over it — including heaps whose object
graph is cyclic (an object referring to itself directly or through a cycle of
any length) — `safeStringify` returns a string; it never fails (the
fuel-exhaustion outcome, which models a thrown error or stack overflow, never
occurs). -/
theorem claim_C2 (hp : JHeap) (v : JVal) : (safeStringify hp v).isSome = true := by
  have hcnt : unseenCount hp [] < hp.length + 1 := by
    unfold unseenCount
    have : ((heapAddrs hp).filter fun a => ¬ a ∈ ([] : List Nat)).length ≤
        (heapAddrs hp).length := List.length_filter_le _ _
    have hlen : (heapAddrs hp).length = hp.length := List.length_map _ _
    omega
  obtain ⟨s, seen2, hv, _⟩ := @strVal_isSome hp (hp.length + 1) [] "" v hcnt
  unfold safeStringify
  rw [hv]
  rfl

/-! ## Response Truncator (`truncateResponse`, `azure-devops-service.ts:1279-1332`) -/
theorem others_foldl_eq (hp : JHeap) (maxSize : Nat) :
    ∀ (entries : List (String × JVal)) (init : List (String × JVal) × Nat),
      (entries.foldl (fun p kv =>
        if kv.1 ∈ essentialFields then p
        else if p.2 + (safeStr hp kv.2).length ≤ maxSize then
          (p.1 ++ [kv], p.2 + (safeStr hp kv.2).length)
        else p) init).1 = init.1 ++ greedySelect hp maxSize init.2 entries := by
  intro entries
  induction entries with
  | nil => intro init; simp [greedySelect]
  | cons kv rest ih =>
    intro init
    rw [List.foldl_cons, greedySelect]
    by_cases h1 : kv.1 ∈ essentialFields
    · rw [if_pos h1, if_pos h1]
      exact ih init
    · rw [if_neg h1, if_neg h1]
      by_cases h2 : init.2 + (safeStr hp kv.2).length ≤ maxSize
      · rw [if_pos h2, if_pos h2]
        rw [ih (init.1 ++ [kv], init.2 + (safeStr hp kv.2).length)]
        simp
      · rw [if_neg h2, if_neg h2]
        exact ih init
theorem essAccum_fst (hp : JHeap) (obj : JVal) :
    (essAccum hp obj).1 =
      essentialFields.filterMap (fun f => (fieldLookup hp obj f).map (fun v => (f, v))) := by
  have main : ∀ (fs : List String) (init : List (String × JVal) × Nat),
      (fs.foldl (fun p f =>
        match fieldLookup hp obj f with
        | some v => (p.1 ++ [(f, v)], p.2 + (safeStr hp v).length)
        | none => p) init).1 =
      init.1 ++ fs.filterMap (fun f => (fieldLookup hp obj f).map (fun v => (f, v))) := by
    intro fs
    induction fs with
    | nil => intro init; simp
    | cons g rest ih =>
      intro init
      rw [List.foldl_cons, List.filterMap_cons]
      match hg : fieldLookup hp obj g with
      | some w =>
        rw [ih (init.1 ++ [(g, w)], init.2 + (safeStr hp w).length)]
        simp
      | none =>
        rw [ih init]
        simp
  simpa using main essentialFields ([], 0)
theorem lookup_append_left {α β : Type} [BEq α] {l1 l2 : List (α × β)} {f : α} {v : β}
    (h : List.lookup f l1 = some v) : List.lookup f (l1 ++ l2) = some v := by
  induction l1 with
  | nil => simp at h
  | cons kv rest ih =>
    rw [List.lookup] at h
    rw [List.cons_append, List.lookup]
    match hbe : f == kv.1 with
    | true => simpa [hbe] using h
    | false =>
      rw [hbe] at h
      exact ih h
theorem lookup_filterMap_ess (hp : JHeap) (obj : JVal) {f : String} {v : JVal}
    (hv : fieldLookup hp obj f = some v) :
    ∀ (fs : List String), f ∈ fs →
      List.lookup f (fs.filterMap (fun g => (fieldLookup hp obj g).map (fun w => (g, w)))) =
        some v := by
  intro fs
  induction fs with
  | nil => intro h; cases h
  | cons g rest ih =>
    intro hmem
    rw [List.filterMap_cons]
    by_cases hfg : f = g
    · subst hfg
      rw [hv]
      simp [List.lookup]
    · have hmem' : f ∈ rest := by
        rcases List.mem_cons.mp hmem with h | h
        · exact absurd h hfg
        · exact h
      have hbe : (f == g) = false := by simpa using hfg
      match hg : fieldLookup hp obj g with
      | some w =>
        simp only [hg, Option.map_some']
        rw [List.lookup]
        simp only [hbe]
        exact ih hmem'
      | none =>
        simp only [hg, Option.map_none']
        exact ih hmem'
theorem truncateResponse_obj (hp : JHeap) (obj : JVal) (maxSize : Nat)
    (hover : maxSize < (safeStr hp obj).length)
    (harrv : isArrayVal hp obj = none) :
    truncateResponse hp obj maxSize =
      .objTrunc
        ((essAccum hp obj).1 ++ greedySelect hp maxSize (essAccum hp obj).2 (entriesOf hp obj))
        true (safeStr hp obj).length
        ((entriesOf hp obj).foldl (fun p kv =>
          if kv.1 ∈ essentialFields then p
          else if p.2 + (safeStr hp kv.2).length ≤ maxSize then
            (p.1 ++ [kv], p.2 + (safeStr hp kv.2).length)
          else p) (essAccum hp obj)).2
        "Response was truncated to fit size limits. Essential information is preserved." := by
  simp only [truncateResponse]
  rw [if_neg (by omega), harrv]
  rw [← others_foldl_eq hp maxSize (entriesOf hp obj) (essAccum hp obj)]
theorem truncateResponse_arr (hp : JHeap) (obj : JVal) (maxSize : Nat) (items : List JVal)
    (hover : maxSize < (safeStr hp obj).length)
    (harrv : isArrayVal hp obj = some items) :
    truncateResponse hp obj maxSize =
      .arrTrunc (items.take (max 1 (items.length * maxSize / (safeStr hp obj).length)))
        items.length true
        (items.length -
          (items.take (max 1 (items.length * maxSize / (safeStr hp obj).length))).length)
        ("Response was truncated. Showing " ++
          toString
            (items.take (max 1 (items.length * maxSize / (safeStr hp obj).length))).length ++
          " of " ++ toString items.length ++ " items.") := by
  simp only [truncateResponse]
  rw [if_neg (by omega), harrv]
/-- Claim C6 is false as stated: `truncateResponse` does not stop at the
first non-essential field that does not fit.  On `c6Heap` with budget 10 the
field `"a"` (serialised size 18 > 10) is skipped, yet the later field `"b"`
is still added, so a field appearing after the first non-fitting field is
included in the result. -/
theorem claim_C6_cex :
    truncateResponse c6Heap (JVal.ref 0) 10 =
        .objTrunc [("b", JVal.prim (.jnum 1))] true 30 1
          "Response was truncated to fit size limits. Essential information is preserved."
      ∧ 10 < (safeStr c6Heap (JVal.prim (.jstr "aaaaaaaaaaaaaaaa"))).length := by
  constructor
  · decide
  · decide
/-- C6 (amended): when `truncateResponse` receives a non-array object whose
serialised form exceeds `maxSize`, the non-essential fields it keeps, in
their original order, are exactly those whose serialised size fits the
budget remaining at their turn; a field that does not fit is skipped but
scanning continues, so later (smaller) fields may still be added — there is
no early stop at the first non-fitting field. -/
theorem claim_C6 (hp : JHeap) (a : Nat) (flds : List (String × JVal)) (maxSize : Nat)
    (hrec : List.lookup a hp = some (.record flds))
    (hover : maxSize < (safeStr hp (JVal.ref a)).length) :
    ∃ ts, truncateResponse hp (JVal.ref a) maxSize =
      .objTrunc
        ((essAccum hp (JVal.ref a)).1 ++
          greedySelect hp maxSize (essAccum hp (JVal.ref a)).2 flds)
        true (safeStr hp (JVal.ref a)).length ts
        "Response was truncated to fit size limits. Essential information is preserved." := by
  have harrv : isArrayVal hp (JVal.ref a) = none := by simp [isArrayVal, hrec]
  have hent : entriesOf hp (JVal.ref a) = flds := by simp [entriesOf, hrec]
  refine ⟨((entriesOf hp (JVal.ref a)).foldl (fun p kv =>
    if kv.1 ∈ essentialFields then p
    else if p.2 + (safeStr hp kv.2).length ≤ maxSize then
      (p.1 ++ [kv], p.2 + (safeStr hp kv.2).length)
    else p) (essAccum hp (JVal.ref a))).2, ?_⟩
  rw [truncateResponse_obj hp (JVal.ref a) maxSize hover harrv, hent]
/-- Closed instance of the amended C6 on a concrete record: the kept
non-essential fields are the greedy selection. -/
theorem claim_C6_witness :
    ∃ ts, truncateResponse c6Heap (JVal.ref 0) 10 =
      .objTrunc
        ((essAccum c6Heap (JVal.ref 0)).1 ++
          greedySelect c6Heap 10 (essAccum c6Heap (JVal.ref 0)).2
            [("a", JVal.prim (.jstr "aaaaaaaaaaaaaaaa")), ("b", JVal.prim (.jnum 1))])
        true (safeStr c6Heap (JVal.ref 0)).length ts
        "Response was truncated to fit size limits. Essential information is preserved." :=
  claim_C6 c6Heap 0
    [("a", JVal.prim (.jstr "aaaaaaaaaaaaaaaa")), ("b", JVal.prim (.jnum 1))] 10
    (by decide) (by decide)
/-- C7: for every object payload whose serialised form exceeds the budget,
every essential field present in the input — in particular an `id` field —
is retained in the output with its original value, regardless of how small
the budget is: the essential-fields pass of `truncateResponse` adds them
unconditionally, before any budget accounting. -/
theorem claim_C7 (hp : JHeap) (a : Nat) (flds : List (String × JVal)) (maxSize : Nat)
    (f : String) (v : JVal)
    (hrec : List.lookup a hp = some (.record flds))
    (hover : maxSize < (safeStr hp (JVal.ref a)).length)
    (hf : f ∈ essentialFields)
    (hv : List.lookup f flds = some v) :
    ∃ fields ts, truncateResponse hp (JVal.ref a) maxSize =
        .objTrunc fields true (safeStr hp (JVal.ref a)).length ts
          "Response was truncated to fit size limits. Essential information is preserved."
      ∧ List.lookup f fields = some v := by
  have harrv : isArrayVal hp (JVal.ref a) = none := by simp [isArrayVal, hrec]
  have hflv : fieldLookup hp (JVal.ref a) f = some v := by simp [fieldLookup, hrec, hv]
  refine ⟨_, _, truncateResponse_obj hp (JVal.ref a) maxSize hover harrv, ?_⟩
  apply lookup_append_left
  rw [essAccum_fst]
  exact lookup_filterMap_ess hp (JVal.ref a) hflv essentialFields hf
/-- Closed instance of C7: with budget 0, the `id` field of a 46-byte record
is still present, with its original value, in the truncated result. -/
theorem claim_C7_witness :
    ∃ fields ts, truncateResponse c7Heap (JVal.ref 0) 0 =
        .objTrunc fields true (safeStr c7Heap (JVal.ref 0)).length ts
          "Response was truncated to fit size limits. Essential information is preserved."
      ∧ List.lookup "id" fields = some (JVal.prim (.jnum 7)) :=
  claim_C7 c7Heap 0
    [("id", JVal.prim (.jnum 7)),
     ("data", JVal.prim (.jstr "xxxxxxxxxxxxxxxxxxxxxxxxxxxxxxxx"))] 0 "id"
    (JVal.prim (.jnum 7)) (by decide) (by decide) (by decide) (by decide)
/-- Claim C8 is false as stated at one corner: for the empty array with
budget 1 the serialised form (`[]`, length 2) exceeds the budget, the claim
demands a kept prefix of length `max 1 (floor (0 * 1 / 2)) = 1`, but
`truncateResponse` keeps `[].slice(0, 1) = []`, i.e. 0 items. -/
theorem claim_C8_cex :
    truncateResponse c8Heap (JVal.ref 0) 1 =
        .arrTrunc [] 0 true 0 "Response was truncated. Showing 0 of 0 items."
      ∧ ([] : List JVal).length ≠
          max 1 (0 * 1 / (safeStr c8Heap (JVal.ref 0)).length) := by
  constructor
  · decide
  · decide
/-- C8 (amended): for every array of `n` items whose serialised form of
length `L` exceeds `maxSize`, `truncateResponse` returns the record
`(items, totalCount, isTruncated, truncatedCount, message)` where `items`
is a prefix of the input of length `min n (max 1 (n * maxSize / L))` (the
`min` is what `Array.slice` imposes; for every non-empty array this equals
the claimed `max 1 (floor (n * maxSize / L))`), `totalCount = n`,
`isTruncated = true`, `truncatedCount` is `n` minus the number of kept
items, and the message is a non-empty string. -/
theorem claim_C8 (hp : JHeap) (a : Nat) (items : List JVal) (maxSize : Nat)
    (harr : List.lookup a hp = some (.arr items))
    (hover : maxSize < (safeStr hp (JVal.ref a)).length) :
    truncateResponse hp (JVal.ref a) maxSize =
        .arrTrunc
          (items.take (max 1 (items.length * maxSize / (safeStr hp (JVal.ref a)).length)))
          items.length true
          (items.length -
            min (max 1 (items.length * maxSize / (safeStr hp (JVal.ref a)).length))
              items.length)
          ("Response was truncated. Showing " ++
            toString
              (min (max 1 (items.length * maxSize / (safeStr hp (JVal.ref a)).length))
                items.length) ++
            " of " ++ toString items.length ++ " items.")
      ∧ ("Response was truncated. Showing " ++
          toString
            (min (max 1 (items.length * maxSize / (safeStr hp (JVal.ref a)).length))
              items.length) ++
          " of " ++ toString items.length ++ " items.") ≠ "" := by
  have harrv : isArrayVal hp (JVal.ref a) = some items := by simp [isArrayVal, harr]
  constructor
  · rw [truncateResponse_arr hp (JVal.ref a) maxSize items hover harrv]
    rw [List.length_take]
  · intro heq
    have hlen := congrArg String.length heq
    simp only [String.length_append] at hlen
    have h1 : ("Response was truncated. Showing " : String).length = 32 := rfl
    have h2 : ("" : String).length = 0 := rfl
    have h3 : (" of " : String).length = 4 := rfl
    have h4 : (" items." : String).length = 7 := rfl
    omega
/-- Closed instance of the amended C8: a three-item array serialised in
7 bytes against budget 3 keeps `max 1 (3 * 3 / 7) = 1` item and reports
2 dropped. -/
theorem claim_C8_witness :
    truncateResponse c8wHeap (JVal.ref 0) 3 =
        .arrTrunc
          ([JVal.prim (.jnum 1), JVal.prim (.jnum 2), JVal.prim (.jnum 3)].take
            (max 1 (3 * 3 / (safeStr c8wHeap (JVal.ref 0)).length)))
          3 true (3 - min (max 1 (3 * 3 / (safeStr c8wHeap (JVal.ref 0)).length)) 3)
          ("Response was truncated. Showing " ++
            toString (min (max 1 (3 * 3 / (safeStr c8wHeap (JVal.ref 0)).length)) 3) ++
            " of " ++ toString 3 ++ " items.")
      ∧ ("Response was truncated. Showing " ++
          toString (min (max 1 (3 * 3 / (safeStr c8wHeap (JVal.ref 0)).length)) 3) ++
          " of " ++ toString 3 ++ " items.") ≠ "" :=
  claim_C8 c8wHeap 0 [JVal.prim (.jnum 1), JVal.prim (.jnum 2), JVal.prim (.jnum 3)] 3
    (by decide) (by decide)

/-! ## Chunked Range Fetcher
(`getCompleteFileContent`, `azure-devops-service.ts:681-743`) -/
theorem length_resolveEvent {α β : Type} (reqs : List α) (fetch : α → β)
    (slots : List (Option β)) (i : Nat) :
    (resolveEvent reqs fetch slots i).length = slots.length := by
  unfold resolveEvent
  match reqs[i]? with
  | some r => simp
  | none => rfl
theorem length_foldl_resolve {α β : Type} (reqs : List α) (fetch : α → β) :
    ∀ (order : List Nat) (slots : List (Option β)),
      (order.foldl (resolveEvent reqs fetch) slots).length = slots.length := by
  intro order
  induction order with
  | nil => intro slots; rfl
  | cons i rest ih =>
    intro slots
    rw [List.foldl_cons, ih, length_resolveEvent]
theorem slotDone_resolve {α β : Type} {reqs : List α} {fetch : α → β} {j : Nat}
    {slots : List (Option β)} (hd : SlotDone reqs fetch j slots) (i : Nat) :
    SlotDone reqs fetch j (resolveEvent reqs fetch slots i) := by
  intro r hr
  unfold resolveEvent
  match hi : reqs[i]? with
  | none => exact hd r hr
  | some ri =>
    by_cases hij : i = j
    · subst hij
      have hri : ri = r := by rw [hi] at hr; injection hr
      subst hri
      have hsl : slots[i]? = some (some (fetch ri)) := hd ri hr
      have hlt : i < slots.length := by
        by_contra hge
        rw [List.getElem?_eq_none (by omega)] at hsl
        cases hsl
      rw [List.getElem?_set_eq_of_lt _ hlt]
    · rw [List.getElem?_set_ne hij]
      exact hd r hr
theorem slotDone_foldl {α β : Type} {reqs : List α} {fetch : α → β} {j : Nat} :
    ∀ (order : List Nat) (slots : List (Option β)),
      SlotDone reqs fetch j slots →
      SlotDone reqs fetch j (order.foldl (resolveEvent reqs fetch) slots) := by
  intro order
  induction order with
  | nil => intro slots hd; exact hd
  | cons i rest ih =>
    intro slots hd
    rw [List.foldl_cons]
    exact ih _ (slotDone_resolve hd i)
theorem mem_foldl_done {α β : Type} {reqs : List α} {fetch : α → β} {j : Nat} :
    ∀ (order : List Nat) (slots : List (Option β)),
      slots.length = reqs.length → j ∈ order →
      SlotDone reqs fetch j (order.foldl (resolveEvent reqs fetch) slots) := by
  intro order
  induction order with
  | nil => intro slots _ hmem; cases hmem
  | cons i rest ih =>
    intro slots hlen hmem
    rw [List.foldl_cons]
    rcases List.mem_cons.mp hmem with hji | hmem'
    · subst hji
      refine slotDone_foldl rest _ ?_
      intro r hr
      unfold resolveEvent
      rw [hr]
      have hlt : j < slots.length := by
        rw [hlen]
        by_contra hge
        rw [List.getElem?_eq_none (by omega)] at hr
        cases hr
      rw [List.getElem?_set_eq_of_lt _ hlt]
    · exact ih _ (by rw [length_resolveEvent, hlen]) hmem'
/-- Order-independence of `Promise.all`: as long as every issued request
eventually completes, the collected result array is the fetch results in
issuance order — the completion order is invisible. -/
theorem collectEvents_covers {α β : Type} {reqs : List α} {fetch : α → β}
    {order : List Nat} (hc : Covers order reqs.length) :
    collectEvents reqs fetch order = reqs.map (fun r => some (fetch r)) := by
  apply List.ext_getElem?
  intro j
  rw [List.getElem?_map]
  match hj : reqs[j]? with
  | some r =>
    have hlt : j < reqs.length := by
      by_contra hge
      rw [List.getElem?_eq_none (by omega)] at hj
      cases hj
    have hdone := @mem_foldl_done α β reqs fetch j order
      (List.replicate reqs.length none) (by simp) (hc j hlt)
    rw [collectEvents]
    exact hdone r hj
  | none =>
    have hge : reqs.length ≤ j := by
      by_contra hlt
      rw [List.getElem?_eq_some_iff.mpr ⟨by omega, rfl⟩] at hj
      cases hj
    rw [collectEvents, List.getElem?_eq_none]
    · rfl
    · rw [length_foldl_resolve, List.length_replicate]
      exact hge
theorem waveReqs_stop {k pos total : Nat} (h : total ≤ pos) : waveReqs k pos total = [] := by
  cases k with
  | zero => rfl
  | succ k => rw [waveReqs, if_neg (by omega)]
theorem sumSizes_cons (r : Nat × Nat) (rs : List (Nat × Nat)) :
    sumSizes (r :: rs) = r.2 + sumSizes rs := by
  simp [sumSizes]
theorem sumSizes_waveReqs :
    ∀ (k pos total : Nat), sumSizes (waveReqs k pos total) = min (k * 100000) (total - pos) := by
  intro k
  induction k with
  | zero => intro pos total; simp [waveReqs, sumSizes]
  | succ k ih =>
    intro pos total
    by_cases h : pos < total
    · rw [waveReqs, if_pos h, sumSizes_cons, ih]
      omega
    · rw [waveReqs, if_neg h]
      simp [sumSizes]
      omega
theorem waveReqs_flatten (file : List Char) :
    ∀ (k pos : Nat),
      ((waveReqs k pos file.length).map (fun r => (file.drop r.1).take r.2)).flatten =
        (file.drop pos).take (min (k * 100000) (file.length - pos)) := by
  intro k
  induction k with
  | zero => intro pos; simp [waveReqs]
  | succ k ih =>
    intro pos
    by_cases h : pos < file.length
    · rw [waveReqs, if_pos h, List.map_cons, List.flatten_cons, ih]
      have harith : min ((k + 1) * 100000) (file.length - pos) =
          min 100000 (file.length - pos) +
            min (k * 100000) (file.length - (pos + min 100000 (file.length - pos))) := by
        omega
      rw [harith, List.take_add]
      congr 1
      rw [List.drop_drop]
    · rw [waveReqs, if_neg h]
      have h0 : file.length - pos = 0 := by omega
      simp [h0]
theorem chunkLoop_fst_pos (fetchChunk : Nat → Nat → PullRequestFileContent)
    (orders : Nat → List Nat) (w pos total : Nat) (h : pos < total) :
    (chunkLoop fetchChunk orders w pos total).1 =
      (collectEvents (waveReqs 5 pos total) (fun r => fetchChunk r.1 r.2) (orders w)).map
          (fun o => match o with | some c => c.content | none => []) ++
        (chunkLoop fetchChunk orders (w + 1) (pos + sumSizes (waveReqs 5 pos total)) total).1 := by
  conv_lhs => rw [chunkLoop.eq_def]
  rw [dif_pos h]
theorem chunkLoop_stop (fetchChunk : Nat → Nat → PullRequestFileContent)
    (orders : Nat → List Nat) (w pos total : Nat) (h : ¬ pos < total) :
    chunkLoop fetchChunk orders w pos total = ([], []) := by
  conv_lhs => rw [chunkLoop.eq_def]
  rw [dif_neg h]
/-- Reassembly correctness of the wave loop: with the honest fetcher and any
family of complete per-wave completion orders, the concatenation of all wave
chunks from cursor `pos` is exactly the remainder of the file. -/
theorem chunkLoop_flatten (file : List Char) (orders : Nat → List Nat) :
    ∀ (fuel w pos : Nat), file.length - pos ≤ fuel →
      (∀ k, Covers (orders (w + k)) ((waveReqs 5 (pos + 500000 * k) file.length).length)) →
      (chunkLoop (specFetcher file) orders w pos file.length).1.flatten = file.drop pos := by
  intro fuel
  induction fuel with
  | zero =>
    intro w pos hf _
    rw [chunkLoop_stop _ _ _ _ _ (by omega)]
    have hge : file.length ≤ pos := by omega
    simp [List.drop_eq_nil_of_le hge]
  | succ fuel ih =>
    intro w pos hf hcov
    by_cases h : pos < file.length
    · rw [chunkLoop_fst_pos _ _ _ _ _ h]
      have hc0 : Covers (orders w) ((waveReqs 5 pos file.length).length) := by
        have := hcov 0
        simpa using this
      have hslots := @collectEvents_covers (Nat × Nat) PullRequestFileContent
        (waveReqs 5 pos file.length)
        (fun r => specFetcher file r.1 r.2) (orders w) hc0
      rw [List.flatten_append, hslots, List.map_map]
      have hmapfn : ((fun o => match o with
            | some c => c.content
            | none => ([] : List Char)) ∘
          (fun r : Nat × Nat => some (specFetcher file r.1 r.2))) =
          (fun r : Nat × Nat => (file.drop r.1).take r.2) := rfl
      rw [hmapfn, waveReqs_flatten]
      have hsum : sumSizes (waveReqs 5 pos file.length) =
          min (5 * 100000) (file.length - pos) := sumSizes_waveReqs 5 pos file.length
      have hs1 : 1 ≤ sumSizes (waveReqs 5 pos file.length) := by omega
      have hf' : file.length - (pos + sumSizes (waveReqs 5 pos file.length)) ≤ fuel := by
        omega
      have hcov' : ∀ k, Covers (orders (w + 1 + k))
          ((waveReqs 5 (pos + sumSizes (waveReqs 5 pos file.length) + 500000 * k)
            file.length).length) := by
        intro k
        by_cases hbig : 500000 ≤ file.length - pos
        · have hseq : pos + sumSizes (waveReqs 5 pos file.length) + 500000 * k =
              pos + 500000 * (k + 1) := by omega
          have hweq : w + 1 + k = w + (k + 1) := by omega
          rw [hseq, hweq]
          exact hcov (k + 1)
        · have hstop : waveReqs 5
              (pos + sumSizes (waveReqs 5 pos file.length) + 500000 * k) file.length = [] :=
            waveReqs_stop (by omega)
          rw [hstop]
          intro j hj
          rw [List.length_nil] at hj
          omega
      rw [ih (w + 1) (pos + sumSizes (waveReqs 5 pos file.length)) hf' hcov']
      have hdd : file.drop (pos + sumSizes (waveReqs 5 pos file.length)) =
          (file.drop pos).drop (sumSizes (waveReqs 5 pos file.length)) := by
        rw [List.drop_drop]
      rw [hdd]
      have htk : min (5 * 100000) (file.length - pos) =
          sumSizes (waveReqs 5 pos file.length) := by omega
      rw [htk, List.take_append_drop]
    · rw [chunkLoop_stop _ _ _ _ _ h]
      have hge : file.length ≤ pos := by omega
      simp [List.drop_eq_nil_of_le hge]
/-- C1: for every non-binary file (any size: the proof covers the probe-only
path, the single full-range path and the wave loop) and every family of
complete per-wave completion orders, the chunked whole-file fetch
`getCompleteFileContent` over the honest range fetcher returns exactly the
original file content: chunks are appended in the order their byte ranges
were issued (slot order), never in completion order, and the concatenation
covers the file with no gap or overlap. -/
theorem claim_C1 (file : List Char) (orders : Nat → List Nat)
    (hcov : ∀ k, Covers (orders k) ((waveReqs 5 (500000 * k) file.length).length)) :
    (getCompleteFileContent (specFetcher file) orders).1 = file := by
  simp only [getCompleteFileContent]
  have hbinneg : ¬ (jsTruthy (specFetcher file 0 1024).isBinary = true) := by
    simp [specFetcher, jsTruthy]
  rw [if_neg hbinneg]
  have hCL : jsOrN (specFetcher file 0 1024).contentLength (specFetcher file 0 1024).size =
      file.length := by
    simp [specFetcher, jsOrN]
  rw [hCL]
  by_cases hsmall : file.length ≤ 100000
  · rw [if_pos hsmall]
    have hplen : (specFetcher file 0 1024).content.length = min 1024 file.length := by
      simp [specFetcher]
    by_cases hfits : file.length ≤ (specFetcher file 0 1024).content.length
    · rw [if_pos hfits]
      rw [hplen] at hfits
      have h1024 : file.length ≤ 1024 := by omega
      simp [specFetcher, List.take_of_length_le h1024]
    · rw [if_neg hfits]
      simp [specFetcher]
  · rw [if_neg hsmall]
    have hcov' : ∀ k, Covers (orders (0 + k))
        ((waveReqs 5 (0 + 500000 * k) file.length).length) := by
      intro k
      simpa using hcov k
    have := chunkLoop_flatten file orders file.length 0 0 (by omega) hcov'
    simpa using this
/-- Closed instance of C1 on a two-byte file with the single-request
completion order `[0]` for every wave. -/
theorem claim_C1_witness :
    (getCompleteFileContent (specFetcher ['a', 'b']) (fun _ => [0])).1 = ['a', 'b'] :=
  claim_C1 ['a', 'b'] (fun _ => [0]) (by
    intro k
    cases k with
    | zero => decide
    | succ k =>
      have hlen2 : (['a', 'b'] : List Char).length = 2 := rfl
      have hstop : waveReqs 5 (500000 * (k + 1)) (['a', 'b'] : List Char).length = [] := by
        apply waveReqs_stop
        rw [hlen2]
        omega
      rw [hstop]
      intro j hj
      rw [List.length_nil] at hj
      omega)
/-- C9: when the initial probe `fetchChunk 0 1024` reports the file as
binary, `getCompleteFileContent` issues exactly that one probe call (the
trace is `[(0, 1024)]`) and returns the placeholder containing the reported
byte size (`contentLength || size`), issuing no further range fetch or
wave, whatever the completion orders would have been. -/
theorem claim_C9 (fetchChunk : Nat → Nat → PullRequestFileContent) (orders : Nat → List Nat)
    (hbin : jsTruthy (fetchChunk 0 1024).isBinary = true) :
    getCompleteFileContent fetchChunk orders =
      (binaryNotDisplayed (jsOrN (fetchChunk 0 1024).contentLength (fetchChunk 0 1024).size),
        [(0, 1024)]) := by
  simp only [getCompleteFileContent]
  rw [if_pos hbin]
/-- Closed instance of C9: with `binFetcher` the fetch returns the size-5
placeholder and the trace holds exactly the probe call. -/
theorem claim_C9_witness :
    getCompleteFileContent binFetcher (fun _ => []) =
      (binaryNotDisplayed 5, [(0, 1024)]) :=
  claim_C9 binFetcher (fun _ => []) rfl

/-! ## Binary File Classifier (`isBinaryFile`, `azure-devops-service.ts:959-991`,
identical copy in `index.ts:1081-1113`) -/
theorem toLower_eq_dot {c : Char} (h : c.toLower = '.') : c = '.' := by
  unfold Char.toLower at h
  simp only [] at h
  by_cases hcond : c.toNat ≥ 65 ∧ c.toNat ≤ 90
  · rw [if_pos hcond] at h
    exfalso
    have hv : (c.toNat + 32).isValidChar := by
      left
      omega
    rw [Char.ofNat, dif_pos hv] at h
    have htn := congrArg Char.toNat h
    have h2 : c.toNat + 32 = 46 := htn
    omega
  · rw [if_neg hcond] at h
    exact h
theorem extSuffix_of_no_dot : ∀ {cs : List Char}, ¬ '.' ∈ cs → extSuffix cs = cs := by
  intro cs
  induction cs with
  | nil => intro _; rfl
  | cons c rest ih =>
    intro h
    have hrest : ¬ '.' ∈ rest := fun hm => h (List.mem_cons_of_mem c hm)
    rw [extSuffix, if_neg hrest]
/-- C10: the classifier decides from the lowercased suffix at the last dot;
a path containing no `'.'` at all is never classified binary, because the
compared suffix is then the entire path, which cannot equal any dotted
extension of the allowlist (lowercasing maps no character other than `'.'`
itself to `'.'`). -/
theorem claim_C10 (filePath : List Char) (hnd : ¬ '.' ∈ filePath) :
    isBinaryFile filePath = false := by
  rw [isBinaryFile, extSuffix_of_no_dot hnd]
  have hdot' : ¬ '.' ∈ filePath.map Char.toLower := by
    intro hm
    obtain ⟨c, hc, he⟩ := List.mem_map.mp hm
    have hcd : c = '.' := toLower_eq_dot he
    subst hcd
    exact hnd hc
  have hnm : ¬ (String.mk (filePath.map Char.toLower)) ∈ binaryExtensions := by
    intro hmem
    have hall : ∀ e ∈ binaryExtensions, '.' ∈ e.toList := by decide
    have hde : '.' ∈ (String.mk (filePath.map Char.toLower)).toList :=
      hall _ hmem
    exact hdot' hde
  cases hc : binaryExtensions.contains (String.mk (filePath.map Char.toLower)) with
  | false => rfl
  | true =>
    exact absurd (List.mem_of_elem_eq_true hc) hnm
/-- Closed instance of C10: a dotless path is not classified binary. -/
theorem claim_C10_witness :
    ¬ '.' ∈ ("README".toList) ∧ isBinaryFile ("README".toList) = false :=
  ⟨by decide, claim_C10 ("README".toList) (by decide)⟩

/-! ## File Content Resolver
(`getPullRequestFileContent` / `getFileFromBranch`, `index.ts:932-1268`) -/
/-- C3: whenever the direct object-id ranged text fetch rejects (and the
path is not binary, so that fetch was attempted), the resolver looks up the
owning pull request and retries through the branch fetcher: if the source
branch attempt has no error it is returned; otherwise if the target branch
attempt has no error it is returned; and if both fail the resolver returns,
without throwing (it is a total function), a `FileRange` whose `error` is
set and whose content is empty. -/
theorem claim_C3 (env : GitEnv) (repositoryId : String) (pullRequestId : Nat)
    (filePath objectId : String) (startPosition length : Nat) (projectName : String)
    (item : GitItem) (pr : PullRequestInfo) (src tgt e : String)
    (rS rT res : PullRequestFileContent)
    (hnb : isBinaryFile filePath.toList = false)
    (hmeta : env.getItemMeta repositoryId filePath projectName objectId = .ok item)
    (hdirect : env.getItemText repositoryId filePath projectName objectId startPosition
      length = .error e)
    (hpr : env.getPullRequestById repositoryId pullRequestId projectName = .ok pr)
    (hsrc : pr.sourceRefName = some src) (hsrcne : src ≠ "")
    (htgt : pr.targetRefName = some tgt) (htgtne : tgt ≠ "")
    (hrS : rS = getFileFromBranch env repositoryId filePath src startPosition length
      projectName)
    (hrT : rT = getFileFromBranch env repositoryId filePath tgt startPosition length
      projectName)
    (hres : res = getPullRequestFileContent env repositoryId pullRequestId filePath
      objectId startPosition length projectName) :
    (rS.error = none → res = rS) ∧
    (rS.error ≠ none → rT.error = none → res = rT) ∧
    (rS.error ≠ none → rT.error ≠ none → res.error ≠ none ∧ res.content = []) := by
  have hsrcT : jsTruthyStr (some src) = true := by simp [jsTruthyStr, hsrcne]
  have htgtT : jsTruthyStr (some tgt) = true := by simp [jsTruthyStr, htgtne]
  subst hrS hrT hres
  simp only [getPullRequestFileContent, hnb, hmeta, hdirect, hpr, hsrc, htgt, hsrcT, htgtT,
    Bool.false_eq_true, if_false, if_true]
  refine ⟨?_, ?_, ?_⟩
  · intro hS
    simp [hS, hsrcT]
  · intro hS hT
    obtain ⟨errS, hoS⟩ := Option.ne_none_iff_exists'.mp hS
    simp [hoS, hT, hsrcT, htgtT]
  · intro hS hT
    obtain ⟨errS, hoS⟩ := Option.ne_none_iff_exists'.mp hS
    obtain ⟨errT, hoT⟩ := Option.ne_none_iff_exists'.mp hT
    simp [hoS, hoT, hsrcT, htgtT, prOuterCatch]
/-- Closed instance of C3 over `c3Env`. -/
theorem claim_C3_witness :
    ((getFileFromBranch c3Env "r" "f.txt" "refs/heads/s" 0 100000 "p").error = none →
        getPullRequestFileContent c3Env "r" 1 "f.txt" "oid" 0 100000 "p" =
          getFileFromBranch c3Env "r" "f.txt" "refs/heads/s" 0 100000 "p") ∧
    ((getFileFromBranch c3Env "r" "f.txt" "refs/heads/s" 0 100000 "p").error ≠ none →
      (getFileFromBranch c3Env "r" "f.txt" "refs/heads/t" 0 100000 "p").error = none →
        getPullRequestFileContent c3Env "r" 1 "f.txt" "oid" 0 100000 "p" =
          getFileFromBranch c3Env "r" "f.txt" "refs/heads/t" 0 100000 "p") ∧
    ((getFileFromBranch c3Env "r" "f.txt" "refs/heads/s" 0 100000 "p").error ≠ none →
      (getFileFromBranch c3Env "r" "f.txt" "refs/heads/t" 0 100000 "p").error ≠ none →
        (getPullRequestFileContent c3Env "r" 1 "f.txt" "oid" 0 100000 "p").error ≠ none ∧
        (getPullRequestFileContent c3Env "r" 1 "f.txt" "oid" 0 100000 "p").content = []) :=
  claim_C3 c3Env "r" 1 "f.txt" "oid" 0 100000 "p" ⟨none, none⟩
    ⟨some "refs/heads/s", some "refs/heads/t"⟩ "refs/heads/s" "refs/heads/t"
    "direct failed" _ _ _ (by decide) rfl rfl rfl rfl (by decide) rfl (by decide)
    rfl rfl rfl
theorem getFileFromBranch_inv (env : GitEnv) (repositoryId filePath : String)
    (branchName : String) (startPosition length : Nat) (projectName : String)
    (file : List Char)
    (henv : EnvHonest env repositoryId filePath projectName file)
    (hpos : startPosition ≤ file.length)
    (hnofb : ∀ cid, ∃ err,
      env.getItemContentAtCommit repositoryId filePath projectName cid = .error err) :
    FileRangeInv (getFileFromBranch env repositoryId filePath branchName startPosition
      length projectName) := by
  rw [getFileFromBranch]
  match hrefs : env.getRefs repositoryId projectName
      ("heads/" ++ stripRefsHeads branchName) with
  | .error e => exact ⟨fun h => Option.noConfusion h, fun _ => Or.inl rfl⟩
  | .ok [] => exact ⟨fun h => Option.noConfusion h, fun _ => Or.inl rfl⟩
  | .ok (r0 :: rs) =>
    simp only []
    match hitem : env.getItemAtCommit repositoryId filePath projectName r0.objectId with
    | .error e => exact ⟨fun h => Option.noConfusion h, fun _ => Or.inl rfl⟩
    | .ok item =>
      simp only []
      have hsize := henv.metaCommit r0.objectId item hitem
      by_cases hbin : isBinaryFile filePath.toList
      · rw [if_pos hbin]
        exact ⟨fun _ => by simpa [hsize] using hpos, fun h => absurd rfl h⟩
      · rw [if_neg hbin]
        match htext : env.getItemTextAtCommit repositoryId filePath projectName r0.objectId
            startPosition length with
        | .ok rc =>
          have hrc := henv.textCommit r0.objectId startPosition length rc htext
          subst hrc
          refine ⟨fun _ => ?_, fun h => absurd rfl h⟩
          simp only [coerceContent, hsize, List.length_take, List.length_drop]
          omega
        | .error e0 =>
          obtain ⟨err, hcontent⟩ := hnofb r0.objectId
          rw [hcontent]
          exact ⟨fun h => Option.noConfusion h, fun _ => Or.inl rfl⟩
/-- C4 (amended): over an honest upstream store, with the requested start
offset within the file, and provided the un-ranged whole-file buffer
fallback of the branch fetcher is not taken (its `getItemContent` call
rejects), every `FileRange` returned by `getPullRequestFileContent` or
`getFileFromBranch` satisfies `position + length ≤ size` when no error is
set; and when an error is set the content is empty — except on the
binary-metadata-failure path, which returns a fixed placeholder string
together with the error. -/
theorem claim_C4 (env : GitEnv) (repositoryId : String) (pullRequestId : Nat)
    (filePath objectId branchName : String) (startPosition length : Nat)
    (projectName : String) (file : List Char)
    (henv : EnvHonest env repositoryId filePath projectName file)
    (hpos : startPosition ≤ file.length)
    (hnofb : ∀ cid, ∃ err,
      env.getItemContentAtCommit repositoryId filePath projectName cid = .error err) :
    FileRangeInv (getPullRequestFileContent env repositoryId pullRequestId filePath
      objectId startPosition length projectName) ∧
    FileRangeInv (getFileFromBranch env repositoryId filePath branchName startPosition
      length projectName) := by
  have hbr : ∀ bn, FileRangeInv (getFileFromBranch env repositoryId filePath bn
      startPosition length projectName) := fun bn =>
    getFileFromBranch_inv env repositoryId filePath bn startPosition length projectName
      file henv hpos hnofb
  refine ⟨?_, hbr branchName⟩
  have hopt : ∀ (o : Option PullRequestFileContent) (fb : PullRequestFileContent),
      (∀ r, o = some r → FileRangeInv r) → FileRangeInv fb →
      FileRangeInv (match o with | some r => r | none => fb) := by
    intro o fb ho hfb
    match o with
    | some r => exact ho r rfl
    | none => exact hfb
  rw [getPullRequestFileContent]
  by_cases hbin : isBinaryFile filePath.toList
  · rw [if_pos hbin]
    match hmeta : env.getItemMeta repositoryId filePath projectName objectId with
    | .ok item =>
      have hsize := henv.metaObj objectId item hmeta
      exact ⟨fun _ => by simpa [hsize] using hpos, fun h => absurd rfl h⟩
    | .error e => exact ⟨fun h => Option.noConfusion h, fun _ => Or.inr rfl⟩
  · rw [if_neg hbin]
    match hmeta : env.getItemMeta repositoryId filePath projectName objectId with
    | .error e => exact ⟨fun h => Option.noConfusion h, fun _ => Or.inl rfl⟩
    | .ok item =>
      simp only []
      match htext : env.getItemText repositoryId filePath projectName objectId
          startPosition length with
      | .ok raw =>
        have hraw := henv.textObj objectId startPosition length raw htext
        subst hraw
        refine ⟨fun _ => ?_, fun h => absurd rfl h⟩
        have hsize := henv.metaObj objectId item hmeta
        simp only [coerceContent, hsize, List.length_take, List.length_drop]
        omega
      | .error e0 =>
        simp only []
        match hpr : env.getPullRequestById repositoryId pullRequestId projectName with
        | .error e1 => exact ⟨fun h => Option.noConfusion h, fun _ => Or.inl rfl⟩
        | .ok pr =>
          simp only []
          apply hopt
          · intro r hr
            by_cases hs : jsTruthyStr pr.sourceRefName = true
            · rw [if_pos hs] at hr
              match hsrc : pr.sourceRefName with
              | some src =>
                rw [hsrc] at hr
                simp only [] at hr
                by_cases hE : (getFileFromBranch env repositoryId filePath src
                    startPosition length projectName).error.isNone = true
                · rw [if_pos hE] at hr
                  cases hr
                  exact hbr src
                · rw [if_neg hE] at hr
                  exact Option.noConfusion hr
              | none =>
                rw [hsrc] at hr
                simp only [] at hr
                exact Option.noConfusion hr
            · rw [if_neg hs] at hr
              exact Option.noConfusion hr
          · apply hopt
            · intro r hr
              by_cases hs : jsTruthyStr pr.targetRefName = true
              · rw [if_pos hs] at hr
                match htgt : pr.targetRefName with
                | some tgt =>
                  rw [htgt] at hr
                  simp only [] at hr
                  by_cases hE : (getFileFromBranch env repositoryId filePath tgt
                      startPosition length projectName).error.isNone = true
                  · rw [if_pos hE] at hr
                    cases hr
                    exact hbr tgt
                  · rw [if_neg hE] at hr
                    exact Option.noConfusion hr
                | none =>
                  rw [htgt] at hr
                  simp only [] at hr
                  exact Option.noConfusion hr
              · rw [if_neg hs] at hr
                exact Option.noConfusion hr
            · exact ⟨fun h => Option.noConfusion h, fun _ => Or.inl rfl⟩
/-- Claim C4 is false as stated, at three concrete inputs: (1) the binary
path with failing metadata returns `error` set together with a non-empty
placeholder content (`index.ts:971-977`); (2) with an honest 2-byte store
and requested start offset 50, the success path returns
`position + length = 50 > 2 = size` with no error; (3) when the ranged text
endpoint fails and the un-ranged buffer fallback serves the whole 2-byte
file at start offset 1, the branch fetcher returns
`position + length = 3 > 2 = size` with no error. -/
theorem claim_C4_cex :
    ((getPullRequestFileContent c4Env1 "r" 1 "a.png" "oid" 0 100000 "p").error ≠ none ∧
      (getPullRequestFileContent c4Env1 "r" 1 "a.png" "oid" 0 100000 "p").content ≠ []) ∧
    ((getPullRequestFileContent c4Env2 "r" 1 "f.txt" "oid" 50 10 "p").error = none ∧
      (getPullRequestFileContent c4Env2 "r" 1 "f.txt" "oid" 50 10 "p").size <
        (getPullRequestFileContent c4Env2 "r" 1 "f.txt" "oid" 50 10 "p").position +
          (getPullRequestFileContent c4Env2 "r" 1 "f.txt" "oid" 50 10 "p").length) ∧
    ((getFileFromBranch c4Env3 "r" "f.txt" "b" 1 100000 "p").error = none ∧
      (getFileFromBranch c4Env3 "r" "f.txt" "b" 1 100000 "p").size <
        (getFileFromBranch c4Env3 "r" "f.txt" "b" 1 100000 "p").position +
          (getFileFromBranch c4Env3 "r" "f.txt" "b" 1 100000 "p").length) := by
  refine ⟨⟨?_, ?_⟩, ⟨?_, ?_⟩, ⟨?_, ?_⟩⟩ <;> decide
/-- Closed instance of the amended C4 over the honest store `c4wEnv`. -/
theorem claim_C4_witness :
    FileRangeInv (getPullRequestFileContent c4wEnv "r" 1 "f.txt" "oid" 0 100000 "p") ∧
    FileRangeInv (getFileFromBranch c4wEnv "r" "f.txt" "b" 0 100000 "p") :=
  claim_C4 c4wEnv "r" 1 "f.txt" "oid" "b" 0 100000 "p" ("hi".toList)
    ⟨fun _ item h => by cases h; rfl,
     fun _ item h => by cases h; rfl,
     fun _ _ _ rc h => by cases h; rfl,
     fun _ _ _ rc h => by cases h; rfl⟩
    (by decide) (fun _ => ⟨"no buffer", rfl⟩)
/-- C5: for every path classified binary, both entry points answer from
metadata alone: they return the file's true total size (as reported by the
metadata call) in `size`, the placeholder string in place of the bytes as
`content`, and a fetched `length` of zero — no content fetch is involved. -/
theorem claim_C5 (env : GitEnv) (repositoryId : String) (pullRequestId : Nat)
    (filePath objectId branchName : String) (startPosition length : Nat)
    (projectName : String) (S : Nat) (item item2 : GitItem) (r0 : GitRef)
    (hb : isBinaryFile filePath.toList = true)
    (hmeta : env.getItemMeta repositoryId filePath projectName objectId = .ok item)
    (hlen : itemLen item = S)
    (hrefs : env.getRefs repositoryId projectName
      ("heads/" ++ stripRefsHeads branchName) = .ok [r0])
    (hmeta2 : env.getItemAtCommit repositoryId filePath projectName r0.objectId = .ok item2)
    (hlen2 : itemLen item2 = S) :
    getPullRequestFileContent env repositoryId pullRequestId filePath objectId
        startPosition length projectName =
      { content := binKBPlaceholder S, size := S, position := startPosition, length := 0
        error := none, isBinary := none, contentLength := none } ∧
    getFileFromBranch env repositoryId filePath branchName startPosition length
        projectName =
      { content := binKBPlaceholder S, size := S, position := startPosition, length := 0
        error := none, isBinary := none, contentLength := none } := by
  constructor
  · rw [getPullRequestFileContent, if_pos hb, hmeta]
    simp only []
    rw [hlen]
  · rw [getFileFromBranch, hrefs]
    simp only []
    rw [hmeta2]
    simp only []
    rw [if_pos hb, hlen2]
/-- Closed instance of C5: a `.png` path over `c5Env` yields the 4KB
placeholder, size 4096 and fetched length 0 from both entry points. -/
theorem claim_C5_witness :
    getPullRequestFileContent c5Env "r" 1 "img.png" "oid" 0 100000 "p" =
      { content := binKBPlaceholder 4096, size := 4096, position := 0, length := 0
        error := none, isBinary := none, contentLength := none } ∧
    getFileFromBranch c5Env "r" "img.png" "main" 0 100000 "p" =
      { content := binKBPlaceholder 4096, size := 4096, position := 0, length := 0
        error := none, isBinary := none, contentLength := none } :=
  claim_C5 c5Env "r" 1 "img.png" "oid" "main" 0 100000 "p" 4096
    ⟨none, some ⟨some 4096⟩⟩ ⟨none, some ⟨some 4096⟩⟩ ⟨"c"⟩
    (by decide) rfl rfl rfl rfl rfl

end AzDevOps

